import Mathlib

/-!
Shallow embedding of the transaction-processing engine in `src/src/engine.rs`
(data model in `src/src/account_state.rs`, records in `src/src/input.rs`).

Amounts are modelled as rationals (the spec describes a signed quantity with
fixed 4-decimal semantic precision); identifiers are natural numbers.
The per-account replay loop of `process_account_transactions` becomes a left
fold over a `ProcState` carrying the optional account, the deposit-amount map,
the disputed-id set, and a `halted` flag modelling the `break` issued by a
successful chargeback.
-/

namespace Engine

/-- A client ID (`ClientId(pub u16)` in the source). -/
abbrev ClientId := Nat

/-- A globally-unique transaction ID (`TxId(u32)` in the source). -/
abbrev TxId := Nat

/-- A deposit or withdrawal amount (`Amount(pub f32)` in the source, with
4-decimal semantic precision per the data model). -/
abbrev Amount := ℚ

/-- The closed transaction variant set from `engine.rs`. -/
inductive Transaction : Type where
  | deposit (tx : TxId) (amount : Amount)
  | withdrawal (tx : TxId) (amount : Amount)
  | dispute (tx : TxId)
  | resolve (tx : TxId)
  | chargeback (tx : TxId)
deriving DecidableEq

/-- The state of a client account (`account_state.rs`). -/
structure AccountState where
  client_id : ClientId
  available : Amount
  held : Amount
  locked : Bool
deriving DecidableEq

/-- The mutable state of the replay loop in `process_account_transactions`:
the optional account, the `deposit_amounts` map, the `disputed_deposit_ids`
set, and a flag recording that the loop was exited by the chargeback
`break`. -/
structure ProcState where
  account : Option AccountState
  deposit_amounts : TxId → Option Amount
  disputed_deposit_ids : TxId → Bool
  halted : Bool

/-- Loop state on entry to `process_account_transactions`. -/
def initState : ProcState :=
  { account := none
    deposit_amounts := fun _ => none
    disputed_deposit_ids := fun _ => false
    halted := false }

/-- True on `Deposit` transactions only. -/
def isDeposit : Transaction → Bool
  | Transaction.deposit _ _ => true
  | _ => false

/-- One iteration of the replay loop of `process_account_transactions`:
create the account on the first deposit, skip the event if the account does
not exist yet (`continue`), otherwise apply the event's effect; a successful
chargeback sets `halted` (the `break`). -/
def processOne (client_id : ClientId) (s : ProcState) (t : Transaction) : ProcState :=
  if s.halted then s
  else
    let acct0 : Option AccountState :=
      match s.account, t with
      | none, Transaction.deposit _ _ =>
          some { client_id := client_id, available := 0, held := 0, locked := false }
      | acc, _ => acc
    match acct0 with
    | none => s
    | some a =>
      match t with
      | Transaction.deposit tx amount =>
          { s with
            account := some { a with available := a.available + amount }
            deposit_amounts := fun t2 => if t2 = tx then some amount else s.deposit_amounts t2 }
      | Transaction.withdrawal _ amount =>
          if amount ≤ a.available then
            { s with account := some { a with available := a.available - amount } }
          else
            { s with account := some a }
      | Transaction.dispute tx =>
          match s.deposit_amounts tx with
          | some amount =>
              { s with
                account := some { a with
                  available := a.available - amount
                  held := a.held + amount }
                disputed_deposit_ids := fun t2 =>
                  if t2 = tx then true else s.disputed_deposit_ids t2 }
          | none => { s with account := some a }
      | Transaction.resolve tx =>
          match s.deposit_amounts tx with
          | some amount =>
              let a2 := if s.disputed_deposit_ids tx then
                  { a with available := a.available + amount, held := a.held - amount }
                else a
              { s with
                account := some a2
                disputed_deposit_ids := fun t2 =>
                  if t2 = tx then false else s.disputed_deposit_ids t2 }
          | none => { s with account := some a }
      | Transaction.chargeback tx =>
          match s.deposit_amounts tx with
          | some amount =>
              if s.disputed_deposit_ids tx then
                { s with
                  account := some { a with held := a.held - amount, locked := true }
                  halted := true }
              else { s with account := some a }
          | none => { s with account := some a }

/-- `process_account_transactions` from `engine.rs`: replay one client's
ordered transaction sequence and return the resulting account state, or
`none` when no deposit ever opened the account. -/
def process_account_transactions (client_id : ClientId)
    (transactions : List Transaction) : Option AccountState :=
  (transactions.foldl (processOne client_id) initState).account

/-- `InputRecord` from `input.rs`: a typed representation of one input line. -/
structure InputRecord where
  type : String
  client : ClientId
  tx : TxId
  amount : Option Amount
deriving DecidableEq

/-- `parse_record` from `engine.rs`: parse an `InputRecord` into a
client ID + transaction pair; the `Err` outcome is modelled as `none`. -/
def parse_record (record : InputRecord) : Option (ClientId × Transaction) :=
  match record.amount with
  | some amount =>
      if record.type = "deposit" then
        some (record.client, Transaction.deposit record.tx amount)
      else if record.type = "withdrawal" then
        some (record.client, Transaction.withdrawal record.tx amount)
      else none
  | none =>
      if record.type = "dispute" then
        some (record.client, Transaction.dispute record.tx)
      else if record.type = "resolve" then
        some (record.client, Transaction.resolve record.tx)
      else if record.type = "chargeback" then
        some (record.client, Transaction.chargeback record.tx)
      else none

/-- One `account_histories.entry(client_id).or_default().push(transaction)`
step on the `BTreeMap`, modelled as insertion into an association list kept
sorted by ascending client ID. -/
def btreeInsert (c : ClientId) (t : Transaction) :
    List (ClientId × List Transaction) → List (ClientId × List Transaction)
  | [] => [(c, [t])]
  | (c2, ts) :: rest =>
      if c = c2 then (c2, ts ++ [t]) :: rest
      else if c < c2 then (c, [t]) :: (c2, ts) :: rest
      else (c2, ts) :: btreeInsert c t rest

/-- The body of the first loop of `run`: a parseable record's transaction is
appended to its client's sequence, an unparseable record is ignored
(`Err(_) => {}`). -/
def recordStep (m : List (ClientId × List Transaction)) (r : InputRecord) :
    List (ClientId × List Transaction) :=
  match parse_record r with
  | some (c, t) => btreeInsert c t m
  | none => m

/-- The `BTreeMap<ClientId, Vec<Transaction>>` built by the first loop of
`run`. -/
def account_histories (records : List InputRecord) :
    List (ClientId × List Transaction) :=
  records.foldl recordStep []

/-- `run` from `engine.rs`: group records by client, replay each client's
history, and collect the accounts that exist. -/
def run (records : List InputRecord) : List AccountState :=
  (account_histories records).filterMap
    (fun p => process_account_transactions p.1 p.2)

/-- The transactions of client `c` among the parseable records, in arrival
order (what ends up as `c`'s vector in the `BTreeMap`). -/
def clientEvents (c : ClientId) (records : List InputRecord) : List Transaction :=
  records.filterMap
    (fun r =>
      match parse_record r with
      | some (c2, t) => if c2 = c then some t else none
      | none => none)

/-! ### Basic lemmas about the replay step -/

theorem processOne_halted (c : ClientId) (s : ProcState) (t : Transaction)
    (h : s.halted = true) : processOne c s t = s := by
  simp [processOne, h]

theorem foldl_processOne_halted (c : ClientId) (s : ProcState) (l : List Transaction)
    (h : s.halted = true) : l.foldl (processOne c) s = s := by
  induction l with
  | nil => rfl
  | cons t l ih => rw [List.foldl_cons, processOne_halted c s t h, ih]

theorem processOne_none_of_not_deposit (c : ClientId) (s : ProcState) (t : Transaction)
    (hacc : s.account = none) (ht : isDeposit t = false) : processOne c s t = s := by
  by_cases hh : s.halted
  · exact processOne_halted c s t hh
  · cases t <;> simp_all [processOne, isDeposit]

theorem processOne_client_id (c : ClientId) (s : ProcState) (t : Transaction)
    (h : ∀ a, s.account = some a → a.client_id = c) :
    ∀ a, (processOne c s t).account = some a → a.client_id = c := by
  intro a ha
  by_cases hh : s.halted
  · rw [processOne_halted c s t hh] at ha; exact h a ha
  · cases hacc : s.account with
    | none =>
      cases t with
      | deposit tx amt =>
          simp [processOne, hh, hacc] at ha
          simp [← ha]
      | withdrawal tx amt =>
          rw [processOne_none_of_not_deposit c s (Transaction.withdrawal tx amt) hacc rfl] at ha
          exact h a ha
      | dispute tx =>
          rw [processOne_none_of_not_deposit c s (Transaction.dispute tx) hacc rfl] at ha
          exact h a ha
      | resolve tx =>
          rw [processOne_none_of_not_deposit c s (Transaction.resolve tx) hacc rfl] at ha
          exact h a ha
      | chargeback tx =>
          rw [processOne_none_of_not_deposit c s (Transaction.chargeback tx) hacc rfl] at ha
          exact h a ha
    | some a0 =>
      have hc0 : a0.client_id = c := h a0 hacc
      cases t with
      | deposit tx amt =>
          simp [processOne, hh, hacc] at ha
          simp [← ha, hc0]
      | withdrawal tx amt =>
          simp [processOne, hh, hacc] at ha
          split_ifs at ha <;> ((try simp at ha); simp [← ha, hc0])
      | dispute tx =>
          simp [processOne, hh, hacc] at ha
          cases hd : s.deposit_amounts tx with
          | none => simp [hd] at ha; simp [← ha, hc0]
          | some amt2 => simp [hd] at ha; simp [← ha, hc0]
      | resolve tx =>
          simp [processOne, hh, hacc] at ha
          cases hd : s.deposit_amounts tx with
          | none => simp [hd] at ha; simp [← ha, hc0]
          | some amt2 =>
              simp [hd] at ha
              split_ifs at ha <;> ((try simp at ha); simp [← ha, hc0])
      | chargeback tx =>
          simp [processOne, hh, hacc] at ha
          cases hd : s.deposit_amounts tx with
          | none => simp [hd] at ha; simp [← ha, hc0]
          | some amt2 =>
              simp [hd] at ha
              split_ifs at ha <;> ((try simp at ha); simp [← ha, hc0])

theorem foldl_client_id_aux (c : ClientId) (l : List Transaction) (s : ProcState)
    (h : ∀ a, s.account = some a → a.client_id = c) :
    ∀ a, ((l.foldl (processOne c) s).account = some a) → a.client_id = c := by
  induction l generalizing s with
  | nil => exact h
  | cons t l ih =>
      rw [List.foldl_cons]
      exact ih (processOne c s t) (processOne_client_id c s t h)

theorem process_client_id (c : ClientId) (ts : List Transaction) (a : AccountState)
    (h : process_account_transactions c ts = some a) : a.client_id = c :=
  foldl_client_id_aux c ts initState (by intro a2 ha2; simp [initState] at ha2) a h

theorem procState_eta (s : ProcState) (a : AccountState) (b : Bool)
    (h : s.account = some a) (hb : s.halted = b) :
    ProcState.mk (some a) s.deposit_amounts s.disputed_deposit_ids b = s := by
  cases s
  simp_all

theorem foldl_no_deposit (c : ClientId) (l : List Transaction) (s : ProcState)
    (hacc : s.account = none) (hl : ∀ t ∈ l, isDeposit t = false) :
    l.foldl (processOne c) s = s := by
  induction l with
  | nil => rfl
  | cons t l ih =>
      rw [List.foldl_cons, processOne_none_of_not_deposit c s t hacc (hl t (by simp))]
      exact ih (fun t2 h2 => hl t2 (by simp [h2]))

theorem processOne_lockedHalted (c : ClientId) (s : ProcState) (t : Transaction)
    (h : ∀ a, s.account = some a → a.locked = true → s.halted = true) :
    ∀ a, (processOne c s t).account = some a → a.locked = true →
      (processOne c s t).halted = true := by
  intro a ha hl
  by_cases hh : s.halted = true
  · rw [processOne_halted c s t hh] at ha ⊢
    exact h a ha hl
  · simp only [Bool.not_eq_true] at hh
    cases hacc : s.account with
    | none =>
      cases t with
      | deposit tx amt =>
          simp [processOne, hh, hacc] at ha
          rw [← ha] at hl
          simp at hl
      | withdrawal tx amt =>
          rw [processOne_none_of_not_deposit c s (Transaction.withdrawal tx amt) hacc rfl] at ha ⊢
          exact h a ha hl
      | dispute tx =>
          rw [processOne_none_of_not_deposit c s (Transaction.dispute tx) hacc rfl] at ha ⊢
          exact h a ha hl
      | resolve tx =>
          rw [processOne_none_of_not_deposit c s (Transaction.resolve tx) hacc rfl] at ha ⊢
          exact h a ha hl
      | chargeback tx =>
          rw [processOne_none_of_not_deposit c s (Transaction.chargeback tx) hacc rfl] at ha ⊢
          exact h a ha hl
    | some a0 =>
      have hlock0 : a0.locked = true → False := by
        intro hcon
        have := h a0 hacc hcon
        rw [hh] at this
        exact Bool.false_ne_true this
      cases t with
      | deposit tx amt =>
          simp [processOne, hh, hacc] at ha
          rw [← ha] at hl
          simp at hl
          exact absurd hl hlock0
      | withdrawal tx amt =>
          simp [processOne, hh, hacc] at ha
          split_ifs at ha <;> ((try simp at ha) <;> rw [← ha] at hl <;>
            (try simp at hl) <;> exact absurd hl hlock0)
      | dispute tx =>
          simp [processOne, hh, hacc] at ha
          cases hd : s.deposit_amounts tx with
          | none =>
              simp [hd] at ha
              rw [← ha] at hl
              exact absurd hl hlock0
          | some amt2 =>
              simp [hd] at ha
              rw [← ha] at hl
              simp at hl
              exact absurd hl hlock0
      | resolve tx =>
          simp [processOne, hh, hacc] at ha
          cases hd : s.deposit_amounts tx with
          | none =>
              simp [hd] at ha
              rw [← ha] at hl
              exact absurd hl hlock0
          | some amt2 =>
              simp [hd] at ha
              split_ifs at ha <;> ((try simp at ha) <;> rw [← ha] at hl <;>
                (try simp at hl) <;> exact absurd hl hlock0)
      | chargeback tx =>
          cases hd : s.deposit_amounts tx with
          | none =>
              simp [processOne, hh, hacc, hd] at ha
              rw [← ha] at hl
              exact absurd hl hlock0
          | some amt2 =>
              by_cases hnd : s.disputed_deposit_ids tx = true
              · simp [processOne, hh, hacc, hd, hnd]
              · simp [processOne, hh, hacc, hd, hnd] at ha
                rw [← ha] at hl
                exact absurd hl hlock0

theorem foldl_lockedHalted (c : ClientId) (l : List Transaction) (s : ProcState)
    (h : ∀ a, s.account = some a → a.locked = true → s.halted = true) :
    ∀ a, ((l.foldl (processOne c) s).account = some a) → a.locked = true →
      (l.foldl (processOne c) s).halted = true := by
  induction l generalizing s with
  | nil => exact h
  | cons t l ih =>
      rw [List.foldl_cons]
      exact ih (processOne c s t) (processOne_lockedHalted c s t h)

/-! ### No-op lemmas: silently-absorbed events leave the loop state unchanged -/

theorem processOne_withdrawal_insufficient (c : ClientId) (s : ProcState) (tx : TxId)
    (amt : Amount) (a : AccountState) (ha : s.account = some a)
    (hlt : a.available < amt) :
    processOne c s (Transaction.withdrawal tx amt) = s := by
  by_cases hh : s.halted = true
  · exact processOne_halted _ _ _ hh
  · simp only [Bool.not_eq_true] at hh
    have hnle : ¬ amt ≤ a.available := not_le.mpr hlt
    simp [processOne, hh, ha, hnle]
    exact procState_eta s a false ha hh

theorem processOne_dispute_unknown (c : ClientId) (s : ProcState) (tx : TxId)
    (hd : s.deposit_amounts tx = none) :
    processOne c s (Transaction.dispute tx) = s := by
  by_cases hh : s.halted = true
  · exact processOne_halted _ _ _ hh
  · simp only [Bool.not_eq_true] at hh
    cases ha : s.account with
    | none => exact processOne_none_of_not_deposit c s _ ha rfl
    | some a =>
        simp [processOne, hh, ha, hd]
        exact procState_eta s a false ha hh

theorem processOne_resolve_unknown (c : ClientId) (s : ProcState) (tx : TxId)
    (hd : s.deposit_amounts tx = none) :
    processOne c s (Transaction.resolve tx) = s := by
  by_cases hh : s.halted = true
  · exact processOne_halted _ _ _ hh
  · simp only [Bool.not_eq_true] at hh
    cases ha : s.account with
    | none => exact processOne_none_of_not_deposit c s _ ha rfl
    | some a =>
        simp [processOne, hh, ha, hd]
        exact procState_eta s a false ha hh

theorem processOne_chargeback_unknown (c : ClientId) (s : ProcState) (tx : TxId)
    (hd : s.deposit_amounts tx = none) :
    processOne c s (Transaction.chargeback tx) = s := by
  by_cases hh : s.halted = true
  · exact processOne_halted _ _ _ hh
  · simp only [Bool.not_eq_true] at hh
    cases ha : s.account with
    | none => exact processOne_none_of_not_deposit c s _ ha rfl
    | some a =>
        simp [processOne, hh, ha, hd]
        exact procState_eta s a false ha hh

theorem processOne_resolve_undisputed (c : ClientId) (s : ProcState) (tx : TxId)
    (hnd : s.disputed_deposit_ids tx = false) :
    processOne c s (Transaction.resolve tx) = s := by
  by_cases hh : s.halted = true
  · exact processOne_halted _ _ _ hh
  · simp only [Bool.not_eq_true] at hh
    cases ha : s.account with
    | none => exact processOne_none_of_not_deposit c s _ ha rfl
    | some a =>
        cases hd : s.deposit_amounts tx with
        | none =>
            simp [processOne, hh, ha, hd]
            exact procState_eta s a false ha hh
        | some amt =>
            simp [processOne, hh, ha, hd, hnd]
            have hfun : (fun t2 => !decide (t2 = tx) && s.disputed_deposit_ids t2) =
                s.disputed_deposit_ids := by
              funext t2
              by_cases h2 : t2 = tx
              · simp [h2, hnd]
              · simp [h2]
            rw [hfun]
            exact procState_eta s a false ha hh

theorem processOne_chargeback_undisputed (c : ClientId) (s : ProcState) (tx : TxId)
    (hnd : s.disputed_deposit_ids tx = false) :
    processOne c s (Transaction.chargeback tx) = s := by
  by_cases hh : s.halted = true
  · exact processOne_halted _ _ _ hh
  · simp only [Bool.not_eq_true] at hh
    cases ha : s.account with
    | none => exact processOne_none_of_not_deposit c s _ ha rfl
    | some a =>
        cases hd : s.deposit_amounts tx with
        | none =>
            simp [processOne, hh, ha, hd]
            exact procState_eta s a false ha hh
        | some amt =>
            simp [processOne, hh, ha, hd, hnd]
            exact procState_eta s a false ha hh

theorem account_histories_skip (pre post : List InputRecord) (r : InputRecord)
    (h : parse_record r = none) :
    account_histories (pre ++ r :: post) = account_histories (pre ++ post) := by
  unfold account_histories
  rw [List.foldl_append, List.foldl_append, List.foldl_cons]
  simp [recordStep, h]

/-! ### Lemmas about the ordered per-client grouping -/

/-- The client IDs present in the grouping, in map order. -/
def histKeys (m : List (ClientId × List Transaction)) : List ClientId :=
  m.map Prod.fst

/-- The transaction sequence stored for client `c` (empty when absent). -/
def histOf (c : ClientId) : List (ClientId × List Transaction) → List Transaction
  | [] => []
  | (c2, ts) :: rest => if c = c2 then ts else histOf c rest

theorem histKeys_cons (c : ClientId) (ts : List Transaction)
    (rest : List (ClientId × List Transaction)) :
    histKeys ((c, ts) :: rest) = c :: histKeys rest := rfl

theorem mem_histKeys_btreeInsert (c : ClientId) (t : Transaction)
    (m : List (ClientId × List Transaction)) (b : ClientId)
    (hb : b ∈ histKeys (btreeInsert c t m)) : b = c ∨ b ∈ histKeys m := by
  induction m with
  | nil =>
      simp only [btreeInsert, histKeys_cons] at hb
      rcases List.mem_cons.mp hb with h | h
      · exact Or.inl h
      · simp [histKeys] at h
  | cons p rest ih =>
      obtain ⟨c2, ts⟩ := p
      rw [histKeys_cons]
      by_cases h1 : c = c2
      · rw [btreeInsert, if_pos h1, histKeys_cons] at hb
        exact Or.inr hb
      · by_cases h2 : c < c2
        · rw [btreeInsert, if_neg h1, if_pos h2, histKeys_cons, histKeys_cons] at hb
          rcases List.mem_cons.mp hb with h | h
          · exact Or.inl h
          · exact Or.inr h
        · rw [btreeInsert, if_neg h1, if_neg h2, histKeys_cons] at hb
          rcases List.mem_cons.mp hb with h | h
          · exact Or.inr (List.mem_cons.mpr (Or.inl h))
          · rcases ih h with h3 | h3
            · exact Or.inl h3
            · exact Or.inr (List.mem_cons.mpr (Or.inr h3))

theorem histKeys_btreeInsert_sorted (c : ClientId) (t : Transaction)
    (m : List (ClientId × List Transaction))
    (hm : List.Sorted (· < ·) (histKeys m)) :
    List.Sorted (· < ·) (histKeys (btreeInsert c t m)) := by
  induction m with
  | nil => simp [btreeInsert, histKeys]
  | cons p rest ih =>
      obtain ⟨c2, ts⟩ := p
      rw [histKeys_cons, List.sorted_cons] at hm
      obtain ⟨hlt, hrest⟩ := hm
      by_cases h1 : c = c2
      · rw [btreeInsert, if_pos h1, histKeys_cons, List.sorted_cons]
        exact ⟨hlt, hrest⟩
      · by_cases h2 : c < c2
        · rw [btreeInsert, if_neg h1, if_pos h2, histKeys_cons, histKeys_cons,
            List.sorted_cons, List.sorted_cons]
          refine ⟨?_, hlt, hrest⟩
          intro b hb
          rcases List.mem_cons.mp hb with h | h
          · subst h
            exact h2
          · have h3 : c2 < b := hlt b h
            exact Nat.lt_trans h2 h3
        · rw [btreeInsert, if_neg h1, if_neg h2, histKeys_cons, List.sorted_cons]
          refine ⟨?_, ih hrest⟩
          intro b hb
          rcases mem_histKeys_btreeInsert c t rest b hb with h | h
          · subst h
            exact Nat.lt_of_le_of_ne (Nat.le_of_not_lt h2) (fun hcon => h1 hcon.symm)
          · exact hlt b h

theorem account_histories_sorted (records : List InputRecord) :
    List.Sorted (· < ·) (histKeys (account_histories records)) := by
  suffices h : ∀ m, List.Sorted (· < ·) (histKeys m) →
      List.Sorted (· < ·) (histKeys (records.foldl recordStep m)) by
    exact h [] (by simp [histKeys])
  induction records with
  | nil => exact fun m hm => hm
  | cons r l ih =>
      intro m hm
      rw [List.foldl_cons]
      apply ih
      cases hp : parse_record r with
      | none => simpa [recordStep, hp] using hm
      | some ct =>
          obtain ⟨c, t⟩ := ct
          simp only [recordStep, hp]
          exact histKeys_btreeInsert_sorted c t m hm

theorem histOf_not_mem (c : ClientId) (m : List (ClientId × List Transaction))
    (h : c ∉ histKeys m) : histOf c m = [] := by
  induction m with
  | nil => rfl
  | cons p rest ih =>
      obtain ⟨c2, ts⟩ := p
      rw [histKeys_cons] at h
      rw [histOf, if_neg (fun hcon => h (List.mem_cons.mpr (Or.inl hcon)))]
      exact ih (fun hcon => h (List.mem_cons.mpr (Or.inr hcon)))

theorem histOf_btreeInsert (c c2 : ClientId) (t : Transaction)
    (m : List (ClientId × List Transaction))
    (hm : List.Sorted (· < ·) (histKeys m)) :
    histOf c (btreeInsert c2 t m) =
      if c = c2 then histOf c m ++ [t] else histOf c m := by
  induction m with
  | nil =>
      simp only [btreeInsert, histOf]
      split_ifs <;> simp [histOf]
  | cons p rest ih =>
      obtain ⟨c3, ts⟩ := p
      rw [histKeys_cons, List.sorted_cons] at hm
      obtain ⟨hlt, hrest⟩ := hm
      by_cases h1 : c2 = c3
      · subst h1
        rw [btreeInsert, if_pos rfl]
        by_cases hc : c = c2
        · rw [histOf, if_pos hc, if_pos hc, histOf, if_pos hc]
        · rw [histOf, if_neg hc, if_neg hc, histOf, if_neg hc]
      · by_cases h2 : c2 < c3
        · rw [btreeInsert, if_neg h1, if_pos h2]
          by_cases hc : c = c2
          · subst hc
            rw [histOf, if_pos rfl, if_pos rfl, histOf, if_neg h1]
            have hnm : c ∉ histKeys rest := by
              intro hmem
              have h4 : c3 < c := hlt c hmem
              exact absurd h4 (Nat.lt_asymm h2)
            rw [histOf_not_mem c rest hnm]
            simp
          · rw [histOf, if_neg hc, if_neg hc]
        · rw [btreeInsert, if_neg h1, if_neg h2]
          by_cases hc : c = c3
          · subst hc
            have hcc : ¬ c = c2 := fun hcon => h1 hcon.symm
            rw [histOf, if_pos rfl, if_neg hcc, histOf, if_pos rfl]
          · rw [histOf, if_neg hc, ih hrest, histOf, if_neg hc]

theorem histOf_foldl (c : ClientId) (records : List InputRecord) :
    ∀ m, List.Sorted (· < ·) (histKeys m) →
      histOf c (records.foldl recordStep m) = histOf c m ++ clientEvents c records := by
  induction records with
  | nil =>
      intro m _
      simp [clientEvents]
  | cons r l ih =>
      intro m hm
      rw [List.foldl_cons]
      cases hp : parse_record r with
      | none =>
          have hstep : recordStep m r = m := by simp [recordStep, hp]
          rw [hstep, ih m hm]
          simp [clientEvents, List.filterMap_cons, hp]
      | some ct =>
          obtain ⟨c2, t⟩ := ct
          have hstep : recordStep m r = btreeInsert c2 t m := by simp [recordStep, hp]
          rw [hstep, ih (btreeInsert c2 t m) (histKeys_btreeInsert_sorted c2 t m hm)]
          rw [histOf_btreeInsert c c2 t m hm]
          by_cases hc : c = c2
          · subst hc
            simp [clientEvents, List.filterMap_cons, hp]
          · have hcc : ¬ c2 = c := fun h => hc h.symm
            rw [if_neg hc]
            simp [clientEvents, List.filterMap_cons, hp, hcc]

theorem histOf_account_histories (c : ClientId) (records : List InputRecord) :
    histOf c (account_histories records) = clientEvents c records := by
  unfold account_histories
  rw [histOf_foldl c records [] (by simp [histKeys])]
  rfl

theorem histOf_of_mem (c : ClientId) (ts : List Transaction)
    (m : List (ClientId × List Transaction))
    (hs : List.Sorted (· < ·) (histKeys m)) (hmem : (c, ts) ∈ m) :
    histOf c m = ts := by
  induction m with
  | nil => simp at hmem
  | cons p rest ih =>
      obtain ⟨c2, ts2⟩ := p
      rw [histKeys_cons, List.sorted_cons] at hs
      obtain ⟨hlt, hrest⟩ := hs
      rcases List.mem_cons.mp hmem with h | h
      · obtain ⟨h1, h2⟩ := Prod.mk.injEq .. ▸ h
        rw [histOf, if_pos h1]
        exact h2.symm
      · have hck : c ∈ histKeys rest := List.mem_map.mpr ⟨(c, ts), h, rfl⟩
        have hgt : c2 < c := hlt c hck
        rw [histOf, if_neg (ne_of_gt hgt)]
        exact ih hrest h

/-- Every account in `run`'s output is the replay of that client's events in
arrival order. -/
theorem run_mem_spec (records : List InputRecord) (a : AccountState)
    (ha : a ∈ run records) :
    process_account_transactions a.client_id (clientEvents a.client_id records) =
      some a := by
  unfold run at ha
  rw [List.mem_filterMap] at ha
  obtain ⟨p, hp, hpa⟩ := ha
  have hcid : a.client_id = p.1 := process_client_id p.1 p.2 a hpa
  have h1 : histOf p.1 (account_histories records) = p.2 :=
    histOf_of_mem p.1 p.2 _ (account_histories_sorted records) (by cases p; exact hp)
  have h2 : clientEvents p.1 records = p.2 :=
    (histOf_account_histories p.1 records).symm.trans h1
  rw [hcid, h2]
  exact hpa

theorem filterMap_clients_sublist (m : List (ClientId × List Transaction)) :
    ((m.filterMap (fun p => process_account_transactions p.1 p.2)).map
        AccountState.client_id).Sublist (m.map Prod.fst) := by
  induction m with
  | nil => simp
  | cons p rest ih =>
      cases hp : process_account_transactions p.1 p.2 with
      | none =>
          rw [List.filterMap_cons, hp, List.map_cons]
          exact ih.cons p.1
      | some a =>
          rw [List.filterMap_cons, hp, List.map_cons, List.map_cons,
            process_client_id p.1 p.2 a hp]
          exact ih.cons₂ p.1

/-- The client IDs in `run`'s output are strictly increasing. -/
theorem run_clients_sorted (records : List InputRecord) :
    List.Sorted (· < ·) ((run records).map AccountState.client_id) :=
  (account_histories_sorted records).sublist (filterMap_clients_sublist _)

/-! ### Single-step effect lemmas -/

theorem processOne_dispute_known (c : ClientId) (s : ProcState) (tx : TxId)
    (amt : Amount) (a : AccountState)
    (hh : s.halted = false) (ha : s.account = some a)
    (hd : s.deposit_amounts tx = some amt) :
    (processOne c s (Transaction.dispute tx)).account =
        some { a with available := a.available - amt, held := a.held + amt } ∧
    (processOne c s (Transaction.dispute tx)).deposit_amounts = s.deposit_amounts ∧
    (processOne c s (Transaction.dispute tx)).disputed_deposit_ids tx = true ∧
    (processOne c s (Transaction.dispute tx)).halted = false := by
  refine ⟨?_, ?_, ?_, ?_⟩ <;> simp [processOne, hh, ha, hd]

theorem processOne_deposit_existing (c : ClientId) (s : ProcState) (tx : TxId)
    (amt : Amount) (a : AccountState)
    (hh : s.halted = false) (ha : s.account = some a) :
    (processOne c s (Transaction.deposit tx amt)).account =
        some { a with available := a.available + amt } ∧
    (processOne c s (Transaction.deposit tx amt)).deposit_amounts tx = some amt ∧
    ((processOne c s (Transaction.deposit tx amt)).disputed_deposit_ids =
        s.disputed_deposit_ids) ∧
    (processOne c s (Transaction.deposit tx amt)).halted = false := by
  refine ⟨?_, ?_, ?_, ?_⟩ <;> simp [processOne, hh, ha]

/-! ### Claims -/

/-- C1, counterexample: disputing the same known deposit twice is NOT a no-op
on the second dispute — the code has no already-disputed check, so for the
sequence deposit(1,10), dispute(1) the final states with one and with two
disputes differ. -/
theorem dispute_twice_changes_state :
    process_account_transactions 1
        [Transaction.deposit 1 10, Transaction.dispute 1, Transaction.dispute 1] ≠
      process_account_transactions 1
        [Transaction.deposit 1 10, Transaction.dispute 1] := by
  norm_num [process_account_transactions, processOne, initState]

/-- C1 (amended): appending a second `Dispute(tx)` immediately after a first
one on a known deposit applies the dispute effect a second time: relative to
the state reached before the disputes, one dispute yields
`available - amt, held + amt` and two disputes yield
`available - amt - amt, held + amt + amt`; only the disputed-mark itself is
idempotent. -/
theorem dispute_twice_applies_twice (c : ClientId) (ts : List Transaction)
    (tx : TxId) (amt : Amount) (a : AccountState)
    (hh : (ts.foldl (processOne c) initState).halted = false)
    (ha : (ts.foldl (processOne c) initState).account = some a)
    (hd : (ts.foldl (processOne c) initState).deposit_amounts tx = some amt) :
    process_account_transactions c (ts ++ [Transaction.dispute tx]) =
      some { a with available := a.available - amt, held := a.held + amt } ∧
    process_account_transactions c
        (ts ++ [Transaction.dispute tx, Transaction.dispute tx]) =
      some { a with available := a.available - amt - amt,
                    held := a.held + amt + amt } := by
  rw [process_account_transactions, process_account_transactions,
    List.foldl_append, List.foldl_append]
  obtain ⟨ha1, hd1, hm1, hh1⟩ :=
    processOne_dispute_known c (ts.foldl (processOne c) initState) tx amt a hh ha hd
  have hd1tx : (processOne c (ts.foldl (processOne c) initState)
      (Transaction.dispute tx)).deposit_amounts tx = some amt := by
    rw [hd1]; exact hd
  obtain ⟨ha2, hd2, hm2, hh2⟩ :=
    processOne_dispute_known c _ tx amt _ hh1 ha1 hd1tx
  exact ⟨ha1, ha2⟩

/-- C1 amended, witness at deposit(1,10); dispute(1); dispute(1). -/
theorem dispute_twice_applies_twice_witness :
    process_account_transactions 1
        [Transaction.deposit 1 10, Transaction.dispute 1, Transaction.dispute 1] =
      some { client_id := 1, available := 10 - 10 - 10, held := 0 + 10 + 10,
             locked := false } :=
  (dispute_twice_applies_twice 1 [Transaction.deposit 1 10] 1 10
      { client_id := 1, available := 10, held := 0, locked := false }
      (by norm_num [processOne, initState])
      (by norm_num [processOne, initState])
      (by norm_num [processOne, initState])).2

/-- C2: once an account is locked (which only a successful chargeback does),
the replay discards every later event of every kind: the loop state after
`ts ++ rest` equals the loop state after `ts`, and the final account equals
the account at the moment of the chargeback. -/
theorem locked_halts_processing (c : ClientId) (ts rest : List Transaction)
    (a : AccountState)
    (ha : (ts.foldl (processOne c) initState).account = some a)
    (hl : a.locked = true) :
    (ts ++ rest).foldl (processOne c) initState =
        ts.foldl (processOne c) initState ∧
    process_account_transactions c (ts ++ rest) = some a := by
  have hhalt : (ts.foldl (processOne c) initState).halted = true :=
    foldl_lockedHalted c ts initState
      (by intro a2 h2 _; simp [initState] at h2) a ha hl
  constructor
  · rw [List.foldl_append]
    exact foldl_processOne_halted c _ rest hhalt
  · rw [process_account_transactions, List.foldl_append,
      foldl_processOne_halted c _ rest hhalt]
    exact ha

/-- C2 witness: a chargeback freezes the account; later deposit, withdrawal
and resolve events change nothing. -/
theorem locked_halts_processing_witness :
    process_account_transactions 1
        [Transaction.deposit 1 10, Transaction.dispute 1, Transaction.chargeback 1,
         Transaction.deposit 2 5, Transaction.withdrawal 3 1, Transaction.resolve 1] =
      some { client_id := 1, available := 0, held := 0, locked := true } :=
  (locked_halts_processing 1
      [Transaction.deposit 1 10, Transaction.dispute 1, Transaction.chargeback 1]
      [Transaction.deposit 2 5, Transaction.withdrawal 3 1, Transaction.resolve 1]
      { client_id := 1, available := 0, held := 0, locked := true }
      (by norm_num [processOne, initState]) rfl).2

/-- C3: a withdrawal against an existing account decreases `available` by
exactly `amt` when `amt ≤ available`, leaves the whole loop state unchanged
otherwise (no error is possible — `processOne` is total), and never touches
`held` or `locked`. -/
theorem withdrawal_guard (c : ClientId) (s : ProcState) (tx : TxId) (amt : Amount)
    (a : AccountState) (hh : s.halted = false) (ha : s.account = some a) :
    (amt ≤ a.available →
      processOne c s (Transaction.withdrawal tx amt) =
        { s with account := some { a with available := a.available - amt } }) ∧
    (¬ amt ≤ a.available → processOne c s (Transaction.withdrawal tx amt) = s) ∧
    (∀ a2, (processOne c s (Transaction.withdrawal tx amt)).account = some a2 →
      a2.held = a.held ∧ a2.locked = a.locked) := by
  refine ⟨?_, ?_, ?_⟩
  · intro hle
    simp [processOne, hh, ha, hle]
  · intro hnle
    exact processOne_withdrawal_insufficient c s tx amt a ha (not_le.mp hnle)
  · intro a2 h2
    by_cases hle : amt ≤ a.available
    · simp [processOne, hh, ha, hle] at h2
      simp [← h2]
    · rw [processOne_withdrawal_insufficient c s tx amt a ha (not_le.mp hle), ha] at h2
      rw [Option.some_inj.mp h2]
      exact ⟨rfl, rfl⟩

/-- A concrete loop state with an open account, used by step-level
witnesses. -/
def sampleWithdrawState : ProcState :=
  { account := some { client_id := 7, available := 5, held := 2, locked := false }
    deposit_amounts := fun _ => none
    disputed_deposit_ids := fun _ => false
    halted := false }

/-- C3 witness: from available = 5, a withdrawal of 3 succeeds and a
withdrawal of 9 is a silent no-op. -/
theorem withdrawal_guard_witness :
    (processOne 7 sampleWithdrawState (Transaction.withdrawal 4 3) =
      { sampleWithdrawState with
        account := some { client_id := 7, available := 5 - 3, held := 2,
                          locked := false } }) ∧
    processOne 7 sampleWithdrawState (Transaction.withdrawal 4 9) =
      sampleWithdrawState := by
  constructor
  · exact (withdrawal_guard 7 sampleWithdrawState 4 3
      { client_id := 7, available := 5, held := 2, locked := false }
      rfl rfl).1 (by norm_num)
  · exact (withdrawal_guard 7 sampleWithdrawState 4 9
      { client_id := 7, available := 5, held := 2, locked := false }
      rfl rfl).2.1 (by norm_num)

/-- C5: a client whose event sequence contains no deposit never gets an
account: `process_account_transactions` returns `none` on a deposit-free
sequence, and no output of `run` carries the client ID of a client all of
whose parsed events are deposit-free. -/
theorem no_deposit_no_account (c : ClientId) (ts : List Transaction)
    (records : List InputRecord)
    (hts : ∀ t ∈ ts, isDeposit t = false)
    (hrec : ∀ t ∈ clientEvents c records, isDeposit t = false) :
    process_account_transactions c ts = none ∧
    ∀ a ∈ run records, a.client_id ≠ c := by
  constructor
  · rw [process_account_transactions, foldl_no_deposit c ts initState rfl hts]
    rfl
  · intro a ha hc
    have h2 := run_mem_spec records a ha
    rw [hc, process_account_transactions,
      foldl_no_deposit c _ initState rfl hrec] at h2
    simp [initState] at h2

/-- C5 witness: a client with only withdrawal/dispute/resolve/chargeback
events yields no account. -/
theorem no_deposit_no_account_witness :
    process_account_transactions 3
      [Transaction.withdrawal 1 5, Transaction.dispute 1, Transaction.resolve 1,
       Transaction.chargeback 1] = none :=
  (no_deposit_no_account 3
      [Transaction.withdrawal 1 5, Transaction.dispute 1, Transaction.resolve 1,
       Transaction.chargeback 1]
      [] (by decide) (by decide)).1

/-- C6: a resolve on a known, currently-disputed deposit moves `amt` from
`held` back to `available` and clears the disputed mark; a resolve on an
unknown transaction id, or on one not currently disputed, leaves the whole
loop state (hence the account) unchanged. -/
theorem resolve_semantics (c : ClientId) (s : ProcState) (tx : TxId)
    (a : AccountState) (hh : s.halted = false) (ha : s.account = some a) :
    (∀ amt, s.deposit_amounts tx = some amt → s.disputed_deposit_ids tx = true →
      (processOne c s (Transaction.resolve tx)).account =
          some { a with available := a.available + amt, held := a.held - amt } ∧
      (processOne c s (Transaction.resolve tx)).disputed_deposit_ids tx = false) ∧
    (s.deposit_amounts tx = none → processOne c s (Transaction.resolve tx) = s) ∧
    (s.disputed_deposit_ids tx = false →
      processOne c s (Transaction.resolve tx) = s) := by
  refine ⟨?_, ?_, ?_⟩
  · intro amt hd hdisp
    constructor <;> simp [processOne, hh, ha, hd, hdisp]
  · exact fun hd => processOne_resolve_unknown c s tx hd
  · exact fun hnd => processOne_resolve_undisputed c s tx hnd

/-- A concrete loop state with deposit 1 of amount 10 under dispute, used by
the C6 witness. -/
def sampleDisputedState : ProcState :=
  { account := some { client_id := 1, available := 0, held := 10, locked := false }
    deposit_amounts := fun t2 => if t2 = 1 then some 10 else none
    disputed_deposit_ids := fun t2 => if t2 = 1 then true else false
    halted := false }

/-- C6 witness: resolving the disputed deposit 1 of amount 10 restores
available funds; resolving the unknown id 9 changes nothing. -/
theorem resolve_semantics_witness :
    ((processOne 1 sampleDisputedState (Transaction.resolve 1)).account =
      some { client_id := 1, available := 0 + 10, held := 10 - 10,
             locked := false }) ∧
    processOne 1 sampleDisputedState (Transaction.resolve 9) =
      sampleDisputedState := by
  constructor
  · exact ((resolve_semantics 1 sampleDisputedState 1
      { client_id := 1, available := 0, held := 10, locked := false }
      rfl rfl).1 10 (by norm_num [sampleDisputedState]) (by norm_num [sampleDisputedState])).1
  · exact (resolve_semantics 1 sampleDisputedState 9
      { client_id := 1, available := 0, held := 10, locked := false }
      rfl rfl).2.1 (by norm_num [sampleDisputedState])

/-- C7: every event arriving before a client's first deposit is discarded
entirely — the replay of `pre ++ rest` with a deposit-free `pre` equals the
replay of `rest` alone; nothing queues or applies retroactively. -/
theorem pre_account_events_inert (c : ClientId) (pre rest : List Transaction)
    (h : ∀ t ∈ pre, isDeposit t = false) :
    process_account_transactions c (pre ++ rest) =
      process_account_transactions c rest := by
  rw [process_account_transactions, process_account_transactions,
    List.foldl_append, foldl_no_deposit c pre initState rfl h]

/-- C7 witness: dispute and chargeback before the first deposit are inert;
the sequence ends with available = 10, held = 0, unlocked. -/
theorem pre_account_events_inert_witness :
    (process_account_transactions 1
        [Transaction.dispute 1, Transaction.chargeback 1, Transaction.deposit 1 10] =
      process_account_transactions 1 [Transaction.deposit 1 10]) ∧
    process_account_transactions 1 [Transaction.deposit 1 10] =
      some { client_id := 1, available := 10, held := 0, locked := false } := by
  constructor
  · exact pre_account_events_inert 1
      [Transaction.dispute 1, Transaction.chargeback 1]
      [Transaction.deposit 1 10] (by decide)
  · norm_num [process_account_transactions, processOne, initState]

theorem clientEvents_sublist (c : ClientId) (records : List InputRecord) :
    (clientEvents c records).Sublist
      (records.filterMap (fun r => (parse_record r).map Prod.snd)) := by
  induction records with
  | nil => simp [clientEvents]
  | cons r l ih =>
      rw [clientEvents, List.filterMap_cons, List.filterMap_cons]
      cases hp : parse_record r with
      | none =>
          simp only [hp, Option.map_none]
          exact ih
      | some ct =>
          obtain ⟨c2, t⟩ := ct
          simp only [hp, Option.map_some]
          by_cases hc : c2 = c
          · rw [if_pos hc]
            exact ih.cons₂ t
          · rw [if_neg hc]
            exact ih.cons t

/-- C4: the output of `run` is sorted by strictly ascending client ID (hence
contains at most one account per client), every output account is the replay
of exactly that client's events, and each client's event list is a
subsequence of the parsed input stream (arrival order preserved). -/
theorem run_output_ordered (records : List InputRecord) :
    List.Sorted (· < ·) ((run records).map AccountState.client_id) ∧
    ((run records).map AccountState.client_id).Nodup ∧
    (∀ a ∈ run records,
      process_account_transactions a.client_id (clientEvents a.client_id records) =
        some a) ∧
    ∀ c : ClientId, (clientEvents c records).Sublist
      (records.filterMap (fun r => (parse_record r).map Prod.snd)) := by
  refine ⟨run_clients_sorted records, (run_clients_sorted records).nodup, ?_, ?_⟩
  · exact fun a ha => run_mem_spec records a ha
  · exact fun c => clientEvents_sublist c records

/-- C4 witness: with clients 2 and 1 interleaved in the input, the output is
client 1 then client 2, and each account is its own client's replay. -/
theorem run_output_ordered_witness :
    process_account_transactions
        (AccountState.client_id { client_id := 1, available := 4, held := 0, locked := false })
        (clientEvents
          (AccountState.client_id { client_id := 1, available := 4, held := 0, locked := false })
          [{ type := "deposit", client := 2, tx := 1, amount := some 7 },
           { type := "deposit", client := 1, tx := 2, amount := some 4 }]) =
      some { client_id := 1, available := 4, held := 0, locked := false } := by
  refine (run_output_ordered
      [{ type := "deposit", client := 2, tx := 1, amount := some 7 },
       { type := "deposit", client := 1, tx := 2, amount := some 4 }]).2.2.1
    { client_id := 1, available := 4, held := 0, locked := false } ?_
  norm_num [run, account_histories, recordStep, parse_record, btreeInsert,
    process_account_transactions, processOne, initState, List.filterMap_cons]

/-- C8: the engine never surfaces an error. Unparseable records are dropped
by `run` without affecting the rest of the stream, and every malformed or
wrongly-staged event — insufficient-funds withdrawal, dispute/resolve/
chargeback on an unknown transaction id, resolve/chargeback on an undisputed
id, and any non-deposit event before the account exists — leaves the loop
state exactly unchanged. -/
theorem silent_no_errors :
    (∀ (r : InputRecord) (pre post : List InputRecord), parse_record r = none →
      run (pre ++ r :: post) = run (pre ++ post)) ∧
    (∀ (c : ClientId) (s : ProcState) (tx : TxId) (amt : Amount) (a : AccountState),
      s.account = some a → a.available < amt →
      processOne c s (Transaction.withdrawal tx amt) = s) ∧
    (∀ (c : ClientId) (s : ProcState) (tx : TxId), s.deposit_amounts tx = none →
      processOne c s (Transaction.dispute tx) = s ∧
      processOne c s (Transaction.resolve tx) = s ∧
      processOne c s (Transaction.chargeback tx) = s) ∧
    (∀ (c : ClientId) (s : ProcState) (tx : TxId),
      s.disputed_deposit_ids tx = false →
      processOne c s (Transaction.resolve tx) = s ∧
      processOne c s (Transaction.chargeback tx) = s) ∧
    (∀ (c : ClientId) (t : Transaction) (s : ProcState), s.account = none →
      isDeposit t = false → processOne c s t = s) := by
  refine ⟨?_, ?_, ?_, ?_, ?_⟩
  · intro r pre post hr
    unfold run
    rw [account_histories_skip pre post r hr]
  · exact fun c s tx amt a ha hlt =>
      processOne_withdrawal_insufficient c s tx amt a ha hlt
  · exact fun c s tx hd => ⟨processOne_dispute_unknown c s tx hd,
      processOne_resolve_unknown c s tx hd, processOne_chargeback_unknown c s tx hd⟩
  · exact fun c s tx hnd => ⟨processOne_resolve_undisputed c s tx hnd,
      processOne_chargeback_undisputed c s tx hnd⟩
  · exact fun c t s ha ht => processOne_none_of_not_deposit c s t ha ht

/-- C8 witness: a record of unrecognized kind is dropped by `run`, and an
unknown-id dispute is a no-op on a concrete state. -/
theorem silent_no_errors_witness :
    (run [{ type := "bogus", client := 1, tx := 1, amount := none },
          { type := "deposit", client := 1, tx := 2, amount := some 3 }] =
      run [{ type := "deposit", client := 1, tx := 2, amount := some 3 }]) ∧
    processOne 7 sampleWithdrawState (Transaction.dispute 4) =
      sampleWithdrawState := by
  constructor
  · exact (silent_no_errors).1
      { type := "bogus", client := 1, tx := 1, amount := none } []
      [{ type := "deposit", client := 1, tx := 2, amount := some 3 }]
      (by decide)
  · exact ((silent_no_errors).2.2.1 7 sampleWithdrawState 4 rfl).1

/-- C9: a second deposit reusing a transaction id still adds its own amount
to `available` and silently overwrites the recorded amount, so a later
dispute of that id moves the second deposit's amount, not the first's. -/
theorem duplicate_deposit_overwrites (c : ClientId) (s : ProcState) (tx : TxId)
    (amt1 amt2 : Amount) (a : AccountState)
    (hh : s.halted = false) (ha : s.account = some a) :
    (processOne c (processOne c s (Transaction.deposit tx amt1))
        (Transaction.deposit tx amt2)).account =
      some { a with available := a.available + amt1 + amt2 } ∧
    (processOne c (processOne c s (Transaction.deposit tx amt1))
        (Transaction.deposit tx amt2)).deposit_amounts tx = some amt2 ∧
    (processOne c (processOne c (processOne c s (Transaction.deposit tx amt1))
        (Transaction.deposit tx amt2)) (Transaction.dispute tx)).account =
      some { a with available := a.available + amt1 + amt2 - amt2,
                    held := a.held + amt2 } := by
  obtain ⟨ha1, hd1, hm1, hh1⟩ :=
    processOne_deposit_existing c s tx amt1 a hh ha
  obtain ⟨ha2, hd2, hm2, hh2⟩ :=
    processOne_deposit_existing c _ tx amt2 _ hh1 ha1
  refine ⟨ha2, hd2, ?_⟩
  exact (processOne_dispute_known c _ tx amt2 _ hh2 ha2 hd2).1

/-- C9 witness: deposits of 10 then 4 on the same id give available 14 and a
subsequent dispute holds 4 (the second amount). -/
theorem duplicate_deposit_overwrites_witness :
    (processOne 7 (processOne 7 sampleWithdrawState (Transaction.deposit 1 10))
        (Transaction.deposit 1 4)).deposit_amounts 1 = some 4 ∧
    (processOne 7 (processOne 7 (processOne 7 sampleWithdrawState
        (Transaction.deposit 1 10)) (Transaction.deposit 1 4))
        (Transaction.dispute 1)).account =
      some { client_id := 7, available := 5 + 10 + 4 - 4, held := 2 + 4,
             locked := false } := by
  have h := duplicate_deposit_overwrites 7 sampleWithdrawState 1 10 4
    { client_id := 7, available := 5, held := 2, locked := false } rfl rfl
  exact ⟨h.2.1, h.2.2⟩

/-- C10: the ledger can drive `available` negative: depositing 10, then
withdrawing 10, then disputing the deposit yields available = -10 — the
dispute moves the deposited amount to `held` without checking that
`available` covers it. -/
theorem available_can_go_negative :
    ∃ a : AccountState,
      process_account_transactions 1
          [Transaction.deposit 1 10, Transaction.withdrawal 2 10,
           Transaction.dispute 1] = some a ∧
      a.available < 0 := by
  refine ⟨{ client_id := 1, available := -10, held := 10, locked := false }, ?_, by norm_num⟩
  norm_num [process_account_transactions, processOne, initState]

end Engine
